import Mathlib

/-!
Verification of the map-deduper diff/merge/defragment engine.

The definitions below are a shallow embedding of `src/map-deduper.py`:

* `Tag`/`TagList`/`TagFields` model the hierarchical tagged records (NBT
  trees) the program operates on: scalar leaves (bytes, ints, strings),
  opaque byte arrays, lists and compounds.
* `deep_walk` models the external TreeWalker (`mc.deep_walk`), which the
  repository does not contain.  Modelled from the spec: a stateless
  depth-first walk of every descendant of the root, yielding for each the
  parent path, the key, the value and a container flag.  The pixel raster
  (`data.colors` byte array) is walked cell by cell, as required by the
  per-cell handling in `get_pixels_to_apply`.
* `evaluate`/`get_map_diffs` embed the diff engine (lines 419-444).
* `processDiffs`/`get_pixels_to_apply` embed the merge validator
  (lines 455-478); raising `mc.MCError` is modelled as `Except.error`.
* `apply_pixels` embeds the pixel applier (lines 481-492) as a pure update.
* `MapRecord`/`MapRecord.toTag` instantiate the tag tree with the concrete
  shape of a map record (DataVersion plus a `data` compound holding the
  metadata scalars and the `colors` raster).
* `dedupe_sort`/`dedupe_select` embed duplicate target selection
  (lines 180-182), `defrag_shift_map` the defragmentation plan (line 511)
  and `dedupe_effects` the destructive-effect trace of `dedupe`
  (lines 207-222) together with `defrag_maps` (lines 504-527, which plans
  and logs but performs no file move nor idcounts write).
-/

namespace MapDeduper

/-! ## The tagged tree model -/

mutual

inductive Tag where
  | byte : Int → Tag
  | int  : Int → Tag
  | str  : String → Tag
  | byteArray : List Int → Tag
  | list : TagList → Tag
  | compound : TagFields → Tag
deriving DecidableEq

inductive TagList where
  | nil : TagList
  | cons : Tag → TagList → TagList
deriving DecidableEq

inductive TagFields where
  | nil : TagFields
  | cons : String → Tag → TagFields → TagFields
deriving DecidableEq

end

inductive TagKey where
  | name : String → TagKey
  | idx  : Nat → TagKey
deriving DecidableEq

/-- A path inside a tagged tree: the sequence of keys from the root. -/
abbrev TagPath := List TagKey

def TagFields.find? : TagFields → String → Option Tag
  | .nil, _ => Option.none
  | .cons k v rest, s => if k = s then Option.some v else rest.find? s

def TagFields.length : TagFields → Nat
  | .nil => 0
  | .cons _ _ rest => 1 + rest.length

def TagList.length : TagList → Nat
  | .nil => 0
  | .cons _ rest => 1 + rest.length

def TagList.get? : TagList → Nat → Option Tag
  | .nil, _ => Option.none
  | .cons v _, 0 => Option.some v
  | .cons _ rest, n + 1 => rest.get? n

/-- Python runtime type of a tag (`type(tag)` in the source). -/
inductive TagType where
  | byteT | intT | strT | byteArrayT | listT | compoundT
deriving DecidableEq

def Tag.typeOf : Tag → TagType
  | .byte _ => .byteT
  | .int _ => .intT
  | .str _ => .strT
  | .byteArray _ => .byteArrayT
  | .list _ => .listT
  | .compound _ => .compoundT

/-- Container recognition: compounds, lists and arrays are composite
(walked into); scalars are leaves. -/
def Tag.isContainer : Tag → Bool
  | .byteArray _ | .list _ | .compound _ => true
  | _ => false

/-- `len(tag)` for composite tags. -/
def Tag.len : Tag → Nat
  | .byteArray bs => bs.length
  | .list ts => ts.length
  | .compound fs => fs.length
  | _ => 0

/-- Python truthiness of a tag value (`if diff.source:` in the source):
zero numbers, empty strings and empty containers are falsy. -/
def Tag.truthy : Tag → Bool
  | .byte n => n != 0
  | .int n => n != 0
  | .str s => s != ""
  | .byteArray bs => !bs.isEmpty
  | .list ts => ts.length != 0
  | .compound fs => fs.length != 0

/-- Equality test used for two leaf tags of equal runtime type
(`tag == src` in `evaluate`, reached only when the node is not a
container). -/
def leafEq : Tag → Tag → Bool
  | .byte a, .byte b => a == b
  | .int a, .int b => a == b
  | .str a, .str b => a == b
  | _, _ => false

/-- Numeric `>=` on scalar tags (`diff.target >= diff.source` for the
DataVersion check; both sides have the same runtime type there). -/
def tagGe : Tag → Tag → Bool
  | .byte a, .byte b => a ≥ b
  | .int a, .int b => a ≥ b
  | _, _ => false

/-- Child of a tag under one key: compound member by name, list element or
array cell by index (array cells are surfaced as byte tags). -/
def Tag.child : Tag → TagKey → Option Tag
  | .compound fs, .name s => fs.find? s
  | .list ts, .idx i => ts.get? i
  | .byteArray bs, .idx i => (bs[i]?).map Tag.byte
  | _, _ => Option.none

/-- Resolve a path inside a tag (`target[path][key]` and the membership
test `path[key] in target` in the source: the lookup succeeds exactly when
the path exists). -/
def Tag.lookup : Tag → TagPath → Option Tag
  | t, [] => Option.some t
  | t, k :: p =>
    match t.child k with
    | Option.some c => c.lookup p
    | Option.none => Option.none

/-! ## The tree walker

Modelled from the spec: `mc.deep_walk` (an external collaborator, not part
of this repository) produces a lazy depth-first sequence of every
descendant of the root — parent path, key, value and container flag.  It
is stateless with respect to the trees being diffed: it receives only the
source tree, so it cannot skip a subtree based on the target. -/

/-- One walk entry: `data.path`, `data.key`, `data.tag`,
`data.is_container` in the source. -/
structure FQTag where
  path : TagPath
  key  : TagKey
  tag  : Tag
  container : Bool
deriving DecidableEq

def walkBytes (p : TagPath) : Nat → List Int → List FQTag
  | _, [] => []
  | i, b :: rest => ⟨p, .idx i, .byte b, false⟩ :: walkBytes p (i + 1) rest

mutual

def walkTag (p : TagPath) (k : TagKey) (t : Tag) : List FQTag :=
  ⟨p, k, t, t.isContainer⟩ ::
    (match t with
     | .compound fs => walkFields (p ++ [k]) fs
     | .list ts => walkElems (p ++ [k]) 0 ts
     | .byteArray bs => walkBytes (p ++ [k]) 0 bs
     | _ => [])

def walkFields (p : TagPath) : TagFields → List FQTag
  | .nil => []
  | .cons k v rest => walkTag p (.name k) v ++ walkFields p rest

def walkElems (p : TagPath) (i : Nat) : TagList → List FQTag
  | .nil => []
  | .cons v rest => walkTag p (.idx i) v ++ walkElems p (i + 1) rest

end

/-- Depth-first sequence of every descendant of the root. -/
def deep_walk (t : Tag) : List FQTag :=
  match t with
  | .compound fs => walkFields [] fs
  | .list ts => walkElems [] 0 ts
  | .byteArray bs => walkBytes [] 0 bs
  | _ => []

/-! ## The diff engine (`get_map_diffs`, lines 419-444) -/

/-- `DiffValue`: the typed payload of one side of a divergence. -/
inductive DiffValue where
  | nil : DiffValue
  | ty : TagType → DiffValue
  | len : Nat → DiffValue
  | val : Tag → DiffValue
deriving DecidableEq

/-- `TagDiff`: a single difference between a source and a target. -/
structure TagDiff where
  category : String
  path : TagPath
  key : TagKey
  source : DiffValue
  target : DiffValue
deriving DecidableEq

/-- The inner `evaluate` of `get_map_diffs`. -/
def evaluate (target : Tag) (data : FQTag) : String × DiffValue × DiffValue :=
  match target.lookup (data.path ++ [data.key]) with
  | Option.none => ("missing", .nil, .nil)
  | Option.some tag =>
    if ¬ tag.typeOf = data.tag.typeOf then
      ("type", .ty data.tag.typeOf, .ty tag.typeOf)
    else if data.container then
      if ¬ tag.len = data.tag.len then ("length", .len data.tag.len, .len tag.len)
      else ("", .nil, .nil)
    else
      if ¬ leafEq tag data.tag then ("value", .val data.tag, .val tag)
      else ("", .nil, .nil)

/-- The yield step of `get_map_diffs`: `if category: yield TagDiff(...)`. -/
def diffOf (target : Tag) (full_tag : FQTag) : Option TagDiff :=
  let r := evaluate target full_tag
  if r.1 = "" then Option.none
  else Option.some ⟨r.1, full_tag.path, full_tag.key, r.2.1, r.2.2⟩

def get_map_diffs (source target : Tag) : List TagDiff :=
  (deep_walk source).filterMap (diffOf target)

/-! ## The merge validator (`get_pixels_to_apply`, lines 455-478) -/

/-- `MapPixel`: pixel change `(diff.key, diff.source)` appended by
`get_pixels_to_apply`. -/
abbrev MapPixel := TagKey × DiffValue

/-- The path `Path("DataVersion")`. -/
def dvFullPath : TagPath := [TagKey.name "DataVersion"]

/-- The path `Path("data.colors")`. -/
def colorsPath : TagPath := [TagKey.name "data", TagKey.name "colors"]

def DiffValue.truthy : DiffValue → Bool
  | .val t => t.truthy
  | _ => false

/-- `diff.target >= diff.source` on value divergences. -/
def DiffValue.ge : DiffValue → DiffValue → Bool
  | .val a, .val b => tagGe a b
  | _, _ => false

/-- The loop body of `get_pixels_to_apply`: fold over the divergences,
raising (`Except.error`) on any non-mergeable one, counting divergences
and collecting the pixel changes. -/
def processDiffs : List TagDiff → Nat → List MapPixel → Except String (List MapPixel × Nat)
  | [], i, pixels => .ok (pixels, i)
  | diff :: rest, i, pixels =>
    if ¬ diff.category = "value" then
      .error "maps cant be merged: non-value difference"
    else if diff.path ++ [diff.key] = dvFullPath then
      if ¬ DiffValue.ge diff.target diff.source then
        .error "maps cant be merged: target DataVersion below source"
      else processDiffs rest (i + 1) pixels
    else if ¬ diff.path = colorsPath then
      .error "maps cant be merged: they must diverge only on colors data"
    else if diff.source.truthy && !diff.target.truthy then
      processDiffs rest (i + 1) (pixels ++ [(diff.key, diff.source)])
    else
      processDiffs rest (i + 1) pixels

/-- `get_pixels_to_apply(source, target)`: either the pixel changes plus
the number of divergences, or the `mc.MCError` rejection. -/
def get_pixels_to_apply (source target : Tag) : Except String (List MapPixel × Nat) :=
  processDiffs (get_map_diffs source target) 0 []

/-- `can_merge(source, target)` (lines 447-452). -/
def can_merge (source target : Tag) : Bool × List MapPixel :=
  match get_pixels_to_apply source target with
  | .ok r => (true, r.1)
  | .error _ => (false, [])

/-! ## The pixel applier (`apply_pixels`, lines 481-492) -/

/-- The write loop `arr[pixel[0]] = pixel[1]` over the raster cells,
as a pure fold.  Changes produced by the validator always carry an index
key and a byte value. -/
def applyPixelsArr (arr : List Int) (pixels : List MapPixel) : List Int :=
  pixels.foldl
    (fun a p =>
      match p with
      | (.idx i, .val (.byte v)) => a.set i v
      | _ => a)
    arr

def TagFields.replace : TagFields → String → Tag → TagFields
  | .nil, _, _ => .nil
  | .cons k v rest, s, nv =>
    if k = s then .cons k nv rest else .cons k v (rest.replace s nv)

/-- `target.data['colors'] = newColors`: replace the raster inside the
`data` compound. -/
def setDataColors (t : Tag) (newColors : Tag) : Tag :=
  match t with
  | .compound fs =>
    match fs.find? "data" with
    | Option.some (.compound dfs) =>
      .compound (fs.replace "data" (.compound (dfs.replace "colors" newColors)))
    | _ => t
  | _ => t

/-- `apply_pixels(target, pixels)`: write the changed cells into the
raster (the copy-on-write of the read-only ndarray view in the source is
the identity in this pure embedding). -/
def apply_pixels (target : Tag) (pixels : List MapPixel) : Tag :=
  match target.lookup colorsPath with
  | Option.some (.byteArray arr) =>
    setDataColors target (.byteArray (applyPixelsArr arr pixels))
  | _ => target

/-- The outcome of `merge_map(source, target)` (lines 398-416): the
`Identical` signal when there are no divergences at all, the no-op outcome
when divergences exist but no change is required, the merged target
otherwise, or the rejection. -/
inductive MergeOutcome where
  | identical : MergeOutcome
  | noChanges : Nat → MergeOutcome
  | merged : Tag → List MapPixel → MergeOutcome
  | rejected : String → MergeOutcome
deriving DecidableEq

def merge_map (source target : Tag) : MergeOutcome :=
  match get_pixels_to_apply source target with
  | .error e => .rejected e
  | .ok (changes, ndiffs) =>
    if ndiffs = 0 then .identical
    else if changes.isEmpty then .noChanges ndiffs
    else .merged (apply_pixels target changes) changes

/-! ## Map records

The concrete shape of a map record: `DataVersion` at the root and a
`data` compound holding the metadata scalars and the `colors` raster
(the fields the program reads: scale, dimension, the center coordinates,
unlimitedTracking, trackingPosition, colors). -/

structure MapRecord where
  dataVersion : Int
  scale : Int
  dimension : Int
  xCenter : Int
  zCenter : Int
  unlimitedTracking : Int
  trackingPosition : Int
  colors : List Int
deriving DecidableEq

def MapRecord.dataFields (m : MapRecord) : TagFields :=
  .cons "scale" (.byte m.scale)
  (.cons "dimension" (.int m.dimension)
  (.cons "xCenter" (.int m.xCenter)
  (.cons "zCenter" (.int m.zCenter)
  (.cons "unlimitedTracking" (.byte m.unlimitedTracking)
  (.cons "trackingPosition" (.byte m.trackingPosition)
  (.cons "colors" (.byteArray m.colors)
  .nil))))))

def MapRecord.toTag (m : MapRecord) : Tag :=
  .compound
    (.cons "DataVersion" (.int m.dataVersion)
    (.cons "data" (.compound m.dataFields)
    .nil))

/-! ## Duplicate target selection (`dedupe`, lines 180-182) -/

/-- The two attributes the duplicate-group sort reads. -/
structure MapMeta where
  mapid : Nat
  dataVersion : Int
deriving DecidableEq

/-- The sort order `key=lambda _: (_.data_version, -_.mapid)`:
ascending dataVersion, descending mapid within equal dataVersion. -/
def sortKeyLe (a b : MapMeta) : Bool :=
  decide (a.dataVersion < b.dataVersion ∨
    (a.dataVersion = b.dataVersion ∧ b.mapid ≤ a.mapid))

/-- The strict version of `sortKeyLe` (`sortKeyLe a b = !sortKeyLt b a`). -/
def sortKeyLt (a b : MapMeta) : Bool :=
  decide (a.dataVersion < b.dataVersion ∨
    (a.dataVersion = b.dataVersion ∧ b.mapid < a.mapid))

def insertByKey (x : MapMeta) : List MapMeta → List MapMeta
  | [] => [x]
  | y :: ys => if sortKeyLt y x then y :: insertByKey x ys else x :: y :: ys

/-- `dupes.sort(key=lambda _: (_.data_version, -_.mapid))`: a stable sort
by the key, ascending (Python's `list.sort` is stable; equal keys keep
their original order, which the strict comparison in `insertByKey`
preserves). -/
def dedupe_sort : List MapMeta → List MapMeta
  | [] => []
  | x :: xs => insertByKey x (dedupe_sort xs)

/-- `target, candidates = dupes.pop(), dupes` after the sort: the last
element of the sorted list is the merge target, the remaining prefix (in
sorted order) the merge-source candidates. -/
def dedupe_select (dupes : List MapMeta) : Option (MapMeta × List MapMeta) :=
  match (dedupe_sort dupes).getLast? with
  | Option.some target => Option.some (target, (dedupe_sort dupes).dropLast)
  | Option.none => Option.none

/-! ## Defragmentation plan (`defrag_maps`, line 511) -/

/-- `shift_map = {m: i for i, m in enumerate(maps) if i < m}`: the ids are
the keys of the all-maps mapping in ascending order; each pair is
`(old id, new id)`. -/
def defrag_shift_map (ids : List Nat) : List (Nat × Nat) :=
  ids.enum.filterMap fun p => if p.1 < p.2 then Option.some (p.2, p.1) else Option.none

/-! ## Destructive effects of `dedupe` (lines 197-222) and `defrag_maps` -/

/-- One merge-and-delete job of the `dedupe` loop: a source to merge and
remove, its target, and the pixel changes to apply. -/
structure MergeJob where
  sourceId : Nat
  targetId : Nat
  pixels : List MapPixel
deriving DecidableEq

/-- A destructive operation on the world store. -/
inductive WorldEffect where
  | saveMap : Nat → WorldEffect
  | renameToBak : Nat → WorldEffect
  | moveMap : Nat → Nat → WorldEffect
  | writeIdCounts : Int → WorldEffect
deriving DecidableEq

/-- The merge-and-delete loop of `dedupe` (lines 207-219): for each job,
apply the pixels in memory, then save the target and rename the source
file to `.bak` — both only when the reference scan was not aborted
(`if not partial:`). -/
def merge_delete_effects : List MergeJob → Bool → List WorldEffect
  | [], _ => []
  | job :: rest, aborted =>
    (if job.pixels.isEmpty then []
     else if aborted then [] else [.saveMap job.targetId]) ++
    (if aborted then [] else [.renameToBak job.sourceId]) ++
    merge_delete_effects rest aborted

/-- `defrag_maps` (lines 504-527) computes and logs the shift plan and the
new idcounts value but performs no file move and no idcounts write in the
source; its destructive-effect trace is empty. -/
def defrag_maps_effects (_ids : List Nat) : List WorldEffect := []

/-- The destructive-effect trace of `dedupe` after the reference scan:
the merge-and-delete loop followed by `defrag_maps`. -/
def dedupe_effects (jobs : List MergeJob) (ids : List Nat) (aborted : Bool) :
    List WorldEffect :=
  merge_delete_effects jobs aborted ++ defrag_maps_effects ids

/-! ## Derived definitions used in the verification -/

/-- A divergence the validator loop accepts without raising. -/
def goodDiff (d : TagDiff) : Prop :=
  d.category = "value" ∧
    (if d.path ++ [d.key] = dvFullPath then DiffValue.ge d.target d.source = true
     else d.path = colorsPath)

instance goodDiff.decide (d : TagDiff) : Decidable (goodDiff d) := by
  unfold goodDiff; infer_instance

/-- The pixel change the loop records for one accepted divergence. -/
def pickPixel (d : TagDiff) : Option MapPixel :=
  if d.path ++ [d.key] = dvFullPath then Option.none
  else if d.source.truthy && !d.target.truthy then Option.some (d.key, d.source)
  else Option.none

/-- The divergence the diff engine reports for one raster cell of the
source, given the corresponding target cell (if any). -/
def cellEntry (i : Nat) (a : Int) : Option Int → List TagDiff
  | Option.none => [⟨"missing", colorsPath, .idx i, .nil, .nil⟩]
  | Option.some b =>
    if a = b then []
    else [⟨"value", colorsPath, .idx i, .val (.byte a), .val (.byte b)⟩]

/-- The divergences the diff engine reports inside the raster: one per
cell of the source raster, `missing` past the end of the target raster,
`value` where the two cells differ. -/
def cellDiffs (tcs : List Int) : Nat → List Int → List TagDiff
  | _, [] => []
  | i, a :: rest => cellEntry i a tcs[i]? ++ cellDiffs tcs (i + 1) rest

/-- The change the validator records for one raster cell of the source,
given the corresponding target cell (if any). -/
def pixelEntry (i : Nat) (a : Int) : Option Int → List MapPixel
  | Option.some b =>
    if a ≠ 0 ∧ b = 0 then [(TagKey.idx i, DiffValue.val (Tag.byte a))] else []
  | Option.none => []

/-- The changes the validator records over the raster: one per cell where
the source is non-blank and the target blank. -/
def pixelChanges (tcs : List Int) : Nat → List Int → List MapPixel
  | _, [] => []
  | i, a :: rest => pixelEntry i a tcs[i]? ++ pixelChanges tcs (i + 1) rest

/-- The pixel-reconciliation rule per cell: a blank target cell receives a
non-blank source value, every other target cell keeps its value. -/
def mergeCell (a b : Int) : Int := if a ≠ 0 ∧ b = 0 then a else b

/-- Equality of all metadata fields the diff engine compares outside the
raster and DataVersion. -/
def metaEq (s t : MapRecord) : Prop :=
  s.scale = t.scale ∧ s.dimension = t.dimension ∧ s.xCenter = t.xCenter ∧
    s.zCenter = t.zCenter ∧ s.unlimitedTracking = t.unlimitedTracking ∧
    s.trackingPosition = t.trackingPosition

/-- The divergences the diff engine reports outside the raster cells:
DataVersion, the metadata scalars, and the raster-length comparison. -/
def metaDiffs (s t : MapRecord) : List TagDiff :=
  (if t.dataVersion = s.dataVersion then []
   else [⟨"value", [], .name "DataVersion",
          .val (.int s.dataVersion), .val (.int t.dataVersion)⟩]) ++
  (if t.scale = s.scale then []
   else [⟨"value", [.name "data"], .name "scale",
          .val (.byte s.scale), .val (.byte t.scale)⟩]) ++
  (if t.dimension = s.dimension then []
   else [⟨"value", [.name "data"], .name "dimension",
          .val (.int s.dimension), .val (.int t.dimension)⟩]) ++
  (if t.xCenter = s.xCenter then []
   else [⟨"value", [.name "data"], .name "xCenter",
          .val (.int s.xCenter), .val (.int t.xCenter)⟩]) ++
  (if t.zCenter = s.zCenter then []
   else [⟨"value", [.name "data"], .name "zCenter",
          .val (.int s.zCenter), .val (.int t.zCenter)⟩]) ++
  (if t.unlimitedTracking = s.unlimitedTracking then []
   else [⟨"value", [.name "data"], .name "unlimitedTracking",
          .val (.byte s.unlimitedTracking), .val (.byte t.unlimitedTracking)⟩]) ++
  (if t.trackingPosition = s.trackingPosition then []
   else [⟨"value", [.name "data"], .name "trackingPosition",
          .val (.byte s.trackingPosition), .val (.byte t.trackingPosition)⟩]) ++
  (if t.colors.length = s.colors.length then []
   else [⟨"length", [.name "data"], .name "colors",
          .len s.colors.length, .len t.colors.length⟩])

/-! ## Concrete records used in closed counterexamples and witnesses -/

/-- A source whose raster contributes one pixel (cell 1) and receives
nothing at cell 0. -/
def recS : MapRecord := ⟨100, 1, 0, 10, 20, 0, 1, [0, 2]⟩

/-- The matching target: blank where `recS` is set, set where `recS` is
blank. -/
def recT : MapRecord := ⟨100, 1, 0, 10, 20, 0, 1, [1, 0]⟩

/-- A source conflicting with `recTconf` at cell 0 (1 vs 2, both
non-blank). -/
def recSconf : MapRecord := ⟨100, 1, 0, 10, 20, 0, 1, [1, 7]⟩

def recTconf : MapRecord := ⟨100, 1, 0, 10, 20, 0, 1, [2, 7]⟩

/-- A record holding a `data` container with one child. -/
def missingSrc : Tag :=
  .compound (.cons "data" (.compound (.cons "scale" (.byte 1) .nil)) .nil)

/-- A record without the `data` container. -/
def missingTgt : Tag := .compound .nil

/-- A duplicate group: ids 7 (dataVersion 100), 3 and 5 (dataVersion
200). -/
def dupesExample : List MapMeta := [⟨7, 100⟩, ⟨3, 200⟩, ⟨5, 200⟩]

/-! ## Lemmas about the validator loop -/

theorem processDiffs_ok_of_good (diffs : List TagDiff) (i : Nat) (acc : List MapPixel)
    (h : ∀ d ∈ diffs, goodDiff d) :
    processDiffs diffs i acc
      = .ok (acc ++ diffs.filterMap pickPixel, i + diffs.length) := by
  induction diffs generalizing i acc with
  | nil => simp [processDiffs]
  | cons d rest ih =>
    obtain ⟨hc, hcond⟩ := h d (List.mem_cons_self d rest)
    have hrest : ∀ x ∈ rest, goodDiff x := fun x hx => h x (List.mem_cons_of_mem _ hx)
    unfold processDiffs
    rw [if_neg (by simp [hc])]
    by_cases hdv : d.path ++ [d.key] = dvFullPath
    · rw [if_pos hdv] at hcond
      rw [if_pos hdv, if_neg (by simp [hcond]), ih _ _ hrest]
      simp [List.filterMap_cons, pickPixel, hdv]
      omega
    · rw [if_neg hdv] at hcond
      rw [if_neg hdv, if_neg (by simp [hcond])]
      by_cases hpick : d.source.truthy && !d.target.truthy
      · rw [if_pos hpick, ih _ _ hrest]
        simp [List.filterMap_cons, pickPixel, hdv, hpick]
        omega
      · rw [if_neg hpick, ih _ _ hrest]
        simp [List.filterMap_cons, pickPixel, hdv, hpick]
        omega

theorem processDiffs_isOk_iff (diffs : List TagDiff) (i : Nat) (acc : List MapPixel) :
    (∃ r, processDiffs diffs i acc = .ok r) ↔ ∀ d ∈ diffs, goodDiff d := by
  induction diffs generalizing i acc with
  | nil => simp [processDiffs]
  | cons d rest ih =>
    unfold processDiffs
    by_cases hc : d.category = "value"
    · rw [if_neg (by simp [hc])]
      by_cases hdv : d.path ++ [d.key] = dvFullPath
      · rw [if_pos hdv]
        by_cases hge : DiffValue.ge d.target d.source
        · rw [if_neg (by simp [hge])]
          rw [ih]
          constructor
          · intro hall
            intro x hx
            rcases List.mem_cons.mp hx with rfl | hx
            · exact ⟨hc, by rw [if_pos hdv]; exact hge⟩
            · exact hall x hx
          · intro hall x hx
            exact hall x (List.mem_cons_of_mem _ hx)
        · rw [if_pos (by simpa using hge)]
          constructor
          · rintro ⟨r, hr⟩; cases hr
          · intro hall
            obtain ⟨_, hcond⟩ := hall d (List.mem_cons_self d rest)
            rw [if_pos hdv] at hcond
            exact absurd hcond hge
      · rw [if_neg hdv]
        by_cases hcp : d.path = colorsPath
        · rw [if_neg (by simp [hcp])]
          have hgood : goodDiff d := ⟨hc, by rw [if_neg hdv]; exact hcp⟩
          by_cases hpick : d.source.truthy && !d.target.truthy
          · rw [if_pos hpick, ih]
            constructor
            · intro hall x hx
              rcases List.mem_cons.mp hx with rfl | hx
              · exact hgood
              · exact hall x hx
            · intro hall x hx; exact hall x (List.mem_cons_of_mem _ hx)
          · rw [if_neg hpick, ih]
            constructor
            · intro hall x hx
              rcases List.mem_cons.mp hx with rfl | hx
              · exact hgood
              · exact hall x hx
            · intro hall x hx; exact hall x (List.mem_cons_of_mem _ hx)
        · rw [if_pos (by simpa using hcp)]
          constructor
          · rintro ⟨r, hr⟩; cases hr
          · intro hall
            obtain ⟨_, hcond⟩ := hall d (List.mem_cons_self d rest)
            rw [if_neg hdv] at hcond
            exact absurd hcond hcp
    · rw [if_pos (by simpa using hc)]
      constructor
      · rintro ⟨r, hr⟩; cases hr
      · intro hall
        obtain ⟨hcat, _⟩ := hall d (List.mem_cons_self d rest)
        exact absurd hcat hc

/-- A successful `get_pixels_to_apply` means every divergence was accepted,
and the returned changes are exactly the recorded pixels. -/
theorem gpta_ok_inv (s t : Tag) (pixels : List MapPixel) (n : Nat)
    (h : get_pixels_to_apply s t = .ok (pixels, n)) :
    (∀ d ∈ get_map_diffs s t, goodDiff d) ∧
      pixels = (get_map_diffs s t).filterMap pickPixel := by
  have hg : ∀ d ∈ get_map_diffs s t, goodDiff d :=
    (processDiffs_isOk_iff _ 0 []).mp ⟨_, h⟩
  refine ⟨hg, ?_⟩
  have h2 := processDiffs_ok_of_good (get_map_diffs s t) 0 [] hg
  rw [get_pixels_to_apply] at h
  rw [h] at h2
  have := (Except.ok.injEq _ _).mp h2.symm
  simpa using (congrArg Prod.fst this).symm

/-! ## The divergence list of two map records -/

theorem lookup_toTag_colors_cell (t : MapRecord) (i : Nat) :
    t.toTag.lookup ([TagKey.name "data", TagKey.name "colors"] ++ [.idx i])
      = (t.colors[i]?).map Tag.byte := by
  simp only [MapRecord.toTag, MapRecord.dataFields, List.cons_append, List.nil_append]
  simp [Tag.lookup, Tag.child, TagFields.find?]
  cases t.colors[i]? <;> rfl

theorem filterMap_diffOf_walkBytes (t : MapRecord) (cs : List Int) (i : Nat) :
    (walkBytes [TagKey.name "data", TagKey.name "colors"] i cs).filterMap (diffOf t.toTag)
      = cellDiffs t.colors i cs := by
  induction cs generalizing i with
  | nil => rfl
  | cons a rest ih =>
    rw [walkBytes, List.filterMap_cons, cellDiffs]
    cases hc : t.colors[i]? with
    | none =>
      simp only [diffOf, evaluate, lookup_toTag_colors_cell, hc, Option.map_none']
      simp [ih, colorsPath, cellEntry]
    | some b =>
      by_cases hab : a = b
      · subst hab
        simp only [diffOf, evaluate, lookup_toTag_colors_cell, hc, Option.map_some']
        simp [leafEq, Tag.typeOf, ih, cellEntry]
      · simp only [diffOf, evaluate, lookup_toTag_colors_cell, hc, Option.map_some']
        simp [leafEq, Tag.typeOf, ih, hab, Ne.symm hab, colorsPath, cellEntry]

theorem filterMap_cons_toList {α β : Type} (f : α → Option β) (a : α) (l : List α) :
    List.filterMap f (a :: l) = (f a).toList ++ List.filterMap f l := by
  cases h : f a <;> simp [h]

theorem diffOf_dv (s t : MapRecord) :
    (diffOf t.toTag ⟨[], .name "DataVersion", .int s.dataVersion, false⟩).toList
      = if t.dataVersion = s.dataVersion then []
        else [⟨"value", [], .name "DataVersion",
               .val (.int s.dataVersion), .val (.int t.dataVersion)⟩] := by
  by_cases h : t.dataVersion = s.dataVersion <;>
    simp [diffOf, evaluate, Tag.lookup, Tag.child, TagFields.find?, MapRecord.toTag,
      Tag.typeOf, leafEq, h]

theorem diffOf_data (s t : MapRecord) :
    (diffOf t.toTag ⟨[], .name "data", .compound s.dataFields, true⟩).toList = [] := by
  simp [diffOf, evaluate, Tag.lookup, Tag.child, TagFields.find?, MapRecord.toTag,
    Tag.typeOf, Tag.len, TagFields.length, MapRecord.dataFields]

theorem diffOf_scale (s t : MapRecord) :
    (diffOf t.toTag ⟨[.name "data"], .name "scale", .byte s.scale, false⟩).toList
      = if t.scale = s.scale then []
        else [⟨"value", [.name "data"], .name "scale",
               .val (.byte s.scale), .val (.byte t.scale)⟩] := by
  by_cases h : t.scale = s.scale <;>
    simp [diffOf, evaluate, Tag.lookup, Tag.child, TagFields.find?, MapRecord.toTag,
      MapRecord.dataFields, Tag.typeOf, leafEq, h]

theorem diffOf_dimension (s t : MapRecord) :
    (diffOf t.toTag ⟨[.name "data"], .name "dimension", .int s.dimension, false⟩).toList
      = if t.dimension = s.dimension then []
        else [⟨"value", [.name "data"], .name "dimension",
               .val (.int s.dimension), .val (.int t.dimension)⟩] := by
  by_cases h : t.dimension = s.dimension <;>
    simp [diffOf, evaluate, Tag.lookup, Tag.child, TagFields.find?, MapRecord.toTag,
      MapRecord.dataFields, Tag.typeOf, leafEq, h]

theorem diffOf_xCenter (s t : MapRecord) :
    (diffOf t.toTag ⟨[.name "data"], .name "xCenter", .int s.xCenter, false⟩).toList
      = if t.xCenter = s.xCenter then []
        else [⟨"value", [.name "data"], .name "xCenter",
               .val (.int s.xCenter), .val (.int t.xCenter)⟩] := by
  by_cases h : t.xCenter = s.xCenter <;>
    simp [diffOf, evaluate, Tag.lookup, Tag.child, TagFields.find?, MapRecord.toTag,
      MapRecord.dataFields, Tag.typeOf, leafEq, h]

theorem diffOf_zCenter (s t : MapRecord) :
    (diffOf t.toTag ⟨[.name "data"], .name "zCenter", .int s.zCenter, false⟩).toList
      = if t.zCenter = s.zCenter then []
        else [⟨"value", [.name "data"], .name "zCenter",
               .val (.int s.zCenter), .val (.int t.zCenter)⟩] := by
  by_cases h : t.zCenter = s.zCenter <;>
    simp [diffOf, evaluate, Tag.lookup, Tag.child, TagFields.find?, MapRecord.toTag,
      MapRecord.dataFields, Tag.typeOf, leafEq, h]

theorem diffOf_unlimited (s t : MapRecord) :
    (diffOf t.toTag
        ⟨[.name "data"], .name "unlimitedTracking", .byte s.unlimitedTracking, false⟩).toList
      = if t.unlimitedTracking = s.unlimitedTracking then []
        else [⟨"value", [.name "data"], .name "unlimitedTracking",
               .val (.byte s.unlimitedTracking), .val (.byte t.unlimitedTracking)⟩] := by
  by_cases h : t.unlimitedTracking = s.unlimitedTracking <;>
    simp [diffOf, evaluate, Tag.lookup, Tag.child, TagFields.find?, MapRecord.toTag,
      MapRecord.dataFields, Tag.typeOf, leafEq, h]

theorem diffOf_tracking (s t : MapRecord) :
    (diffOf t.toTag
        ⟨[.name "data"], .name "trackingPosition", .byte s.trackingPosition, false⟩).toList
      = if t.trackingPosition = s.trackingPosition then []
        else [⟨"value", [.name "data"], .name "trackingPosition",
               .val (.byte s.trackingPosition), .val (.byte t.trackingPosition)⟩] := by
  by_cases h : t.trackingPosition = s.trackingPosition <;>
    simp [diffOf, evaluate, Tag.lookup, Tag.child, TagFields.find?, MapRecord.toTag,
      MapRecord.dataFields, Tag.typeOf, leafEq, h]

theorem diffOf_colors_node (s t : MapRecord) :
    (diffOf t.toTag ⟨[.name "data"], .name "colors", .byteArray s.colors, true⟩).toList
      = if t.colors.length = s.colors.length then []
        else [⟨"length", [.name "data"], .name "colors",
               .len s.colors.length, .len t.colors.length⟩] := by
  by_cases h : t.colors.length = s.colors.length <;>
    simp [diffOf, evaluate, Tag.lookup, Tag.child, TagFields.find?, MapRecord.toTag,
      MapRecord.dataFields, Tag.typeOf, Tag.len, h]

/-- The walk of an encoded map record: the DataVersion leaf, the `data`
container, its six metadata leaves, the raster container, then the raster
cells. -/
theorem deep_walk_toTag (s : MapRecord) :
    deep_walk s.toTag
      = ⟨[], .name "DataVersion", .int s.dataVersion, false⟩ ::
        ⟨[], .name "data", .compound s.dataFields, true⟩ ::
        ⟨[.name "data"], .name "scale", .byte s.scale, false⟩ ::
        ⟨[.name "data"], .name "dimension", .int s.dimension, false⟩ ::
        ⟨[.name "data"], .name "xCenter", .int s.xCenter, false⟩ ::
        ⟨[.name "data"], .name "zCenter", .int s.zCenter, false⟩ ::
        ⟨[.name "data"], .name "unlimitedTracking", .byte s.unlimitedTracking, false⟩ ::
        ⟨[.name "data"], .name "trackingPosition", .byte s.trackingPosition, false⟩ ::
        ⟨[.name "data"], .name "colors", .byteArray s.colors, true⟩ ::
        walkBytes [.name "data", .name "colors"] 0 s.colors := by
  show deep_walk (.compound (.cons "DataVersion" (.int s.dataVersion)
    (.cons "data" (.compound (.cons "scale" (.byte s.scale)
      (.cons "dimension" (.int s.dimension)
      (.cons "xCenter" (.int s.xCenter)
      (.cons "zCenter" (.int s.zCenter)
      (.cons "unlimitedTracking" (.byte s.unlimitedTracking)
      (.cons "trackingPosition" (.byte s.trackingPosition)
      (.cons "colors" (.byteArray s.colors)
      .nil)))))))) .nil))) = _
  simp only [deep_walk, walkFields, walkTag.eq_def, Tag.isContainer,
    List.cons_append, List.nil_append, List.append_nil]
  rfl

/-- Characterization of the diff of two map records: the metadata
divergences in walk order, then one divergence per differing raster
cell. -/
theorem diffs_encoding (s t : MapRecord) :
    get_map_diffs s.toTag t.toTag = metaDiffs s t ++ cellDiffs t.colors 0 s.colors := by
  rw [get_map_diffs, deep_walk_toTag]
  simp only [filterMap_cons_toList, List.filterMap_nil]
  rw [filterMap_diffOf_walkBytes]
  rw [diffOf_dv, diffOf_data, diffOf_scale, diffOf_dimension, diffOf_xCenter,
    diffOf_zCenter, diffOf_unlimited, diffOf_tracking, diffOf_colors_node]
  simp [metaDiffs, List.append_assoc]

/-! ## The pixel changes of a merge between two map records -/

theorem colorsCell_ne_dvFullPath (i : Nat) :
    colorsPath ++ [TagKey.idx i] ≠ dvFullPath := by
  simp [colorsPath, dvFullPath]

theorem filterMap_pickPixel_cellDiffs (tcs : List Int) (scs : List Int) (i : Nat) :
    (cellDiffs tcs i scs).filterMap pickPixel = pixelChanges tcs i scs := by
  induction scs generalizing i with
  | nil => rfl
  | cons a rest ih =>
    rw [cellDiffs, pixelChanges, List.filterMap_append, ih]
    congr 1
    cases hb : tcs[i]? with
    | none =>
      simp [cellEntry, pixelEntry, pickPixel, DiffValue.truthy, colorsCell_ne_dvFullPath]
    | some b =>
      simp only [cellEntry, pixelEntry]
      by_cases hab : a = b
      · rw [if_pos hab, List.filterMap_nil]
        have hc : ¬(a ≠ 0 ∧ b = 0) := by omega
        rw [if_neg hc]
      · rw [if_neg hab]
        by_cases hc : a ≠ 0 ∧ b = 0
        · rw [if_pos hc]
          have h1 : (a != 0) = true := by simp [hc.1]
          have h2 : (b != 0) = false := by simp [hc.2]
          simp [pickPixel, DiffValue.truthy, Tag.truthy, colorsCell_ne_dvFullPath, h1, h2]
        · rw [if_neg hc]
          have h3 : ((a != 0) && !(b != 0)) = false := by
            rcases not_and_or.mp hc with h | h
            · simp [show a = 0 by omega]
            · simp [h]
          simp [pickPixel, DiffValue.truthy, Tag.truthy, colorsCell_ne_dvFullPath, h3]

theorem mem_pixelChanges {tcs scs : List Int} {i j : Nat} {w : DiffValue} :
    (TagKey.idx j, w) ∈ pixelChanges tcs i scs ↔
      ∃ a, i ≤ j ∧ scs[j - i]? = Option.some a ∧ w = DiffValue.val (Tag.byte a) ∧
        a ≠ 0 ∧ tcs[j]? = Option.some 0 := by
  induction scs generalizing i with
  | nil => simp [pixelChanges]
  | cons a rest ih =>
    rw [pixelChanges]
    rw [List.mem_append, ih]
    constructor
    · rintro (hhead | ⟨c, hle, hsc, hw, hc0, ht0⟩)
      · cases hb : tcs[i]? with
        | none =>
          rw [hb] at hhead
          simp [pixelEntry] at hhead
        | some b =>
          rw [hb] at hhead
          simp only [pixelEntry] at hhead
          by_cases hc : a ≠ 0 ∧ b = 0
          · rw [if_pos hc] at hhead
            simp only [List.mem_singleton, Prod.mk.injEq] at hhead
            obtain ⟨hj, hw⟩ := hhead
            have hji : j = i := by cases hj; rfl
            subst hji
            exact ⟨a, le_refl j, by simp, hw, hc.1, by rw [hb, hc.2]⟩
          · rw [if_neg hc] at hhead; simp at hhead
      · refine ⟨c, by omega, ?_, hw, hc0, ht0⟩
        have : j - i = (j - (i + 1)) + 1 := by omega
        rw [this]
        simpa using hsc
    · rintro ⟨c, hle, hsc, hw, hc0, ht0⟩
      rcases Nat.eq_or_lt_of_le hle with rfl | hlt
      · left
        simp only [Nat.sub_self] at hsc
        simp only [List.getElem?_cons_zero, Option.some.injEq] at hsc
        subst hsc
        rw [ht0]
        simp [pixelEntry, hc0, hw]
      · right
        refine ⟨c, by omega, ?_, hw, hc0, ht0⟩
        have : j - i = (j - (i + 1)) + 1 := by omega
        rw [this] at hsc
        simpa using hsc

theorem applyPixelsArr_cons (arr : List Int) (p : MapPixel) (ps : List MapPixel) :
    applyPixelsArr arr (p :: ps)
      = applyPixelsArr
          (match p with
           | (.idx i, .val (.byte v)) => arr.set i v
           | _ => arr) ps := rfl

theorem applyPixelsArr_step_length (arr : List Int) (p : MapPixel) :
    (match p with
     | (TagKey.idx i, DiffValue.val (Tag.byte v)) => arr.set i v
     | _ => arr).length = arr.length := by
  rcases p with ⟨k, w⟩
  cases k with
  | name s => rfl
  | idx i =>
    cases w with
    | val t => cases t <;> simp [List.length_set]
    | nil => rfl
    | ty _ => rfl
    | len _ => rfl

theorem length_applyPixelsArr (ps : List MapPixel) (arr : List Int) :
    (applyPixelsArr arr ps).length = arr.length := by
  induction ps generalizing arr with
  | nil => rfl
  | cons p rest ih =>
    rw [applyPixelsArr_cons, ih, applyPixelsArr_step_length]

theorem getElem?_applyPixelsArr_not_mem (ps : List MapPixel) (arr : List Int) (j : Nat)
    (h : ∀ v : Int, (TagKey.idx j, DiffValue.val (Tag.byte v)) ∉ ps) :
    (applyPixelsArr arr ps)[j]? = arr[j]? := by
  induction ps generalizing arr with
  | nil => rfl
  | cons p rest ih =>
    rw [applyPixelsArr_cons]
    have hrest : ∀ v : Int, (TagKey.idx j, DiffValue.val (Tag.byte v)) ∉ rest :=
      fun v hv => h v (List.mem_cons_of_mem _ hv)
    rw [ih _ hrest]
    rcases p with ⟨k, w⟩
    cases k with
    | name s => rfl
    | idx i =>
      cases w with
      | val t =>
        cases t with
        | byte v =>
          have hij : i ≠ j := by
            intro he
            exact h v (by rw [he]; exact List.mem_cons_self _ _)
          exact List.getElem?_set_ne hij
        | int _ => rfl
        | str _ => rfl
        | byteArray _ => rfl
        | list _ => rfl
        | compound _ => rfl
      | nil => rfl
      | ty _ => rfl
      | len _ => rfl

theorem getElem?_applyPixelsArr_mem (ps : List MapPixel) (arr : List Int) (j : Nat) (v : Int)
    (hmem : (TagKey.idx j, DiffValue.val (Tag.byte v)) ∈ ps)
    (hall : ∀ w : Int, (TagKey.idx j, DiffValue.val (Tag.byte w)) ∈ ps → w = v)
    (hj : j < arr.length) :
    (applyPixelsArr arr ps)[j]? = Option.some v := by
  induction ps generalizing arr with
  | nil => cases hmem
  | cons p rest ih =>
    rw [applyPixelsArr_cons]
    by_cases hp : p = (TagKey.idx j, DiffValue.val (Tag.byte v))
    · subst hp
      by_cases hr : (TagKey.idx j, DiffValue.val (Tag.byte v)) ∈ rest
      · exact ih _ hr (fun w hw => hall w (List.mem_cons_of_mem _ hw))
          (by rw [List.length_set]; exact hj)
      · have hnone : ∀ w : Int, (TagKey.idx j, DiffValue.val (Tag.byte w)) ∉ rest := by
          intro w hw
          have := hall w (List.mem_cons_of_mem _ hw)
          subst this
          exact hr hw
        rw [getElem?_applyPixelsArr_not_mem rest _ j hnone]
        exact List.getElem?_set_self hj
    · have hmem' : (TagKey.idx j, DiffValue.val (Tag.byte v)) ∈ rest := by
        rcases List.mem_cons.mp hmem with h1 | h1
        · exact absurd h1.symm hp
        · exact h1
      have hall' : ∀ w : Int, (TagKey.idx j, DiffValue.val (Tag.byte w)) ∈ rest → w = v :=
        fun w hw => hall w (List.mem_cons_of_mem _ hw)
      have := applyPixelsArr_step_length arr p
      exact ih _ hmem' hall' (by omega)

theorem applyPixelsArr_pixelChanges (scs tcs : List Int) (h : scs.length = tcs.length) :
    applyPixelsArr tcs (pixelChanges tcs 0 scs) = List.zipWith mergeCell scs tcs := by
  apply List.ext_getElem?
  intro j
  by_cases hj : j < tcs.length
  · have hjs : j < scs.length := by omega
    have ha : scs[j]? = Option.some scs[j] := List.getElem?_eq_getElem hjs
    have hb : tcs[j]? = Option.some tcs[j] := List.getElem?_eq_getElem hj
    have hz : (List.zipWith mergeCell scs tcs)[j]? = Option.some (mergeCell scs[j] tcs[j]) := by
      rw [List.getElem?_zipWith, ha, hb]
    by_cases hc : scs[j] ≠ 0 ∧ tcs[j] = 0
    · have hmem : (TagKey.idx j, DiffValue.val (Tag.byte scs[j])) ∈ pixelChanges tcs 0 scs :=
        mem_pixelChanges.mpr ⟨scs[j], Nat.zero_le j, by simp [ha], rfl, hc.1,
          by rw [hb, hc.2]⟩
      have hall : ∀ w : Int,
          (TagKey.idx j, DiffValue.val (Tag.byte w)) ∈ pixelChanges tcs 0 scs → w = scs[j] := by
        intro w hw
        obtain ⟨c, _, hsc, hwe, _, _⟩ := mem_pixelChanges.mp hw
        simp only [Nat.sub_zero, ha, Option.some.injEq] at hsc
        cases hwe
        omega
      rw [getElem?_applyPixelsArr_mem _ _ _ _ hmem hall hj, hz]
      simp [mergeCell, hc]
    · have hnone : ∀ w : Int,
          (TagKey.idx j, DiffValue.val (Tag.byte w)) ∉ pixelChanges tcs 0 scs := by
        intro w hw
        obtain ⟨c, _, hsc, hwe, hc0, ht0⟩ := mem_pixelChanges.mp hw
        simp only [Nat.sub_zero, ha, Option.some.injEq] at hsc
        rw [hb] at ht0
        simp only [Option.some.injEq] at ht0
        exact hc ⟨by omega, ht0⟩
      rw [getElem?_applyPixelsArr_not_mem _ _ _ hnone, hb, hz]
      have : mergeCell scs[j] tcs[j] = tcs[j] := by simp [mergeCell, hc]
      rw [this]
  · have h1 : (applyPixelsArr tcs (pixelChanges tcs 0 scs))[j]? = Option.none := by
      apply List.getElem?_eq_none
      rw [length_applyPixelsArr]
      omega
    have h2 : (List.zipWith mergeCell scs tcs)[j]? = Option.none := by
      apply List.getElem?_eq_none
      rw [List.length_zipWith]
      omega
    rw [h1, h2]

/-- Every recorded pixel change carries an index key and a byte value. -/
theorem mem_pixelChanges_shape {tcs scs : List Int} {i : Nat} {p : MapPixel}
    (h : p ∈ pixelChanges tcs i scs) :
    ∃ j a, p = (TagKey.idx j, DiffValue.val (Tag.byte a)) := by
  induction scs generalizing i with
  | nil => cases h
  | cons a rest ih =>
    rw [pixelChanges] at h
    rcases List.mem_append.mp h with h1 | h1
    · cases hb : tcs[i]? with
      | none => rw [hb] at h1; simp [pixelEntry] at h1
      | some b =>
        rw [hb] at h1
        simp only [pixelEntry] at h1
        by_cases hc : a ≠ 0 ∧ b = 0
        · rw [if_pos hc] at h1
          simp only [List.mem_singleton] at h1
          exact ⟨i, a, h1⟩
        · rw [if_neg hc] at h1; simp at h1
    · exact ih h1

/-- After the merged raster is written back, no cell would be picked up
again: a second validation records no change. -/
theorem pixelChanges_merged_nil (scs tcs : List Int) (h : scs.length = tcs.length) :
    pixelChanges (List.zipWith mergeCell scs tcs) 0 scs = [] := by
  rw [List.eq_nil_iff_forall_not_mem]
  intro p hmem
  obtain ⟨j, c0, rfl⟩ := mem_pixelChanges_shape hmem
  obtain ⟨c, _, hsc, _, hc0, ht0⟩ := mem_pixelChanges.mp hmem
  simp only [Nat.sub_zero] at hsc
  have hjs : j < scs.length := by
    by_contra hge
    rw [List.getElem?_eq_none (by omega)] at hsc
    cases hsc
  have hjt : j < tcs.length := by omega
  rw [List.getElem?_zipWith, List.getElem?_eq_getElem hjs, List.getElem?_eq_getElem hjt] at ht0
  simp only [Option.some.injEq] at ht0
  have hcs : scs[j] = c := by
    rw [List.getElem?_eq_getElem hjs] at hsc
    simpa using hsc
  by_cases hcc : scs[j] ≠ 0 ∧ tcs[j] = 0
  · rw [mergeCell, if_pos hcc] at ht0; omega
  · rw [mergeCell, if_neg hcc] at ht0
    exact hcc ⟨by omega, ht0⟩

/-! ## Validation of two map records -/

theorem cellDiffs_good (tcs scs : List Int) (i : Nat) (h : i + scs.length ≤ tcs.length) :
    ∀ d ∈ cellDiffs tcs i scs, goodDiff d := by
  induction scs generalizing i with
  | nil => intro d hd; cases hd
  | cons a rest ih =>
    intro d hd
    rw [List.length_cons] at h
    rw [cellDiffs] at hd
    rcases List.mem_append.mp hd with h1 | h1
    · have hi : i < tcs.length := by omega
      have hb : tcs[i]? = Option.some tcs[i] := List.getElem?_eq_getElem hi
      rw [hb] at h1
      simp only [cellEntry] at h1
      by_cases hab : a = tcs[i]
      · rw [if_pos hab] at h1; cases h1
      · rw [if_neg hab] at h1
        simp only [List.mem_singleton] at h1
        subst h1
        exact ⟨rfl, by rw [if_neg (colorsCell_ne_dvFullPath i)]⟩
    · exact ih (i + 1) (by omega) d h1

theorem metaDiffs_of_metaEq (s t : MapRecord) (hm : metaEq s t)
    (hlen : s.colors.length = t.colors.length) :
    metaDiffs s t
      = if t.dataVersion = s.dataVersion then []
        else [⟨"value", [], .name "DataVersion",
               .val (.int s.dataVersion), .val (.int t.dataVersion)⟩] := by
  obtain ⟨h1, h2, h3, h4, h5, h6⟩ := hm
  simp [metaDiffs, h1, h2, h3, h4, h5, h6, hlen]

theorem gpta_toTag_ok (s t : MapRecord) (hdv : s.dataVersion ≤ t.dataVersion)
    (hm : metaEq s t) (hlen : s.colors.length = t.colors.length) :
    ∃ n, get_pixels_to_apply s.toTag t.toTag
      = .ok (pixelChanges t.colors 0 s.colors, n) := by
  have hgood : ∀ d ∈ get_map_diffs s.toTag t.toTag, goodDiff d := by
    rw [diffs_encoding]
    intro d hd
    rcases List.mem_append.mp hd with h1 | h1
    · rw [metaDiffs_of_metaEq s t hm hlen] at h1
      by_cases hdveq : t.dataVersion = s.dataVersion
      · rw [if_pos hdveq] at h1; cases h1
      · rw [if_neg hdveq] at h1
        simp only [List.mem_singleton] at h1
        subst h1
        refine ⟨rfl, ?_⟩
        rw [if_pos (by rfl)]
        simp [DiffValue.ge, tagGe, hdv]
    · exact cellDiffs_good t.colors s.colors 0 (by omega) d h1
  have hpix : (get_map_diffs s.toTag t.toTag).filterMap pickPixel
      = pixelChanges t.colors 0 s.colors := by
    rw [diffs_encoding, List.filterMap_append, filterMap_pickPixel_cellDiffs,
      metaDiffs_of_metaEq s t hm hlen]
    by_cases hdveq : t.dataVersion = s.dataVersion
    · rw [if_pos hdveq]; simp
    · rw [if_neg hdveq]
      simp [pickPixel, dvFullPath]
  exact ⟨0 + (get_map_diffs s.toTag t.toTag).length, by
    rw [get_pixels_to_apply, processDiffs_ok_of_good _ _ _ hgood, List.nil_append, hpix]⟩

theorem mem_ite_nil {α : Type} {c : Prop} [Decidable c] {d x : α} :
    x ∈ (if c then ([] : List α) else [d]) ↔ ¬c ∧ x = d := by
  by_cases h : c <;> simp [h]

theorem dvDiff_mem_metaDiffs (s t : MapRecord) (hne : t.dataVersion ≠ s.dataVersion) :
    (⟨"value", [], .name "DataVersion",
      .val (.int s.dataVersion), .val (.int t.dataVersion)⟩ : TagDiff) ∈ metaDiffs s t := by
  unfold metaDiffs
  rw [if_neg hne]
  simp

theorem scaleDiff_mem_metaDiffs (s t : MapRecord) (hne : t.scale ≠ s.scale) :
    (⟨"value", [.name "data"], .name "scale",
      .val (.byte s.scale), .val (.byte t.scale)⟩ : TagDiff) ∈ metaDiffs s t := by
  unfold metaDiffs
  rw [if_neg hne]
  simp

theorem dimensionDiff_mem_metaDiffs (s t : MapRecord) (hne : t.dimension ≠ s.dimension) :
    (⟨"value", [.name "data"], .name "dimension",
      .val (.int s.dimension), .val (.int t.dimension)⟩ : TagDiff) ∈ metaDiffs s t := by
  unfold metaDiffs
  rw [if_neg hne]
  simp

theorem xCenterDiff_mem_metaDiffs (s t : MapRecord) (hne : t.xCenter ≠ s.xCenter) :
    (⟨"value", [.name "data"], .name "xCenter",
      .val (.int s.xCenter), .val (.int t.xCenter)⟩ : TagDiff) ∈ metaDiffs s t := by
  unfold metaDiffs
  rw [if_neg hne]
  simp

theorem zCenterDiff_mem_metaDiffs (s t : MapRecord) (hne : t.zCenter ≠ s.zCenter) :
    (⟨"value", [.name "data"], .name "zCenter",
      .val (.int s.zCenter), .val (.int t.zCenter)⟩ : TagDiff) ∈ metaDiffs s t := by
  unfold metaDiffs
  rw [if_neg hne]
  simp

theorem unlimitedDiff_mem_metaDiffs (s t : MapRecord)
    (hne : t.unlimitedTracking ≠ s.unlimitedTracking) :
    (⟨"value", [.name "data"], .name "unlimitedTracking",
      .val (.byte s.unlimitedTracking), .val (.byte t.unlimitedTracking)⟩ : TagDiff)
      ∈ metaDiffs s t := by
  unfold metaDiffs
  rw [if_neg hne]
  simp

theorem trackingDiff_mem_metaDiffs (s t : MapRecord)
    (hne : t.trackingPosition ≠ s.trackingPosition) :
    (⟨"value", [.name "data"], .name "trackingPosition",
      .val (.byte s.trackingPosition), .val (.byte t.trackingPosition)⟩ : TagDiff)
      ∈ metaDiffs s t := by
  unfold metaDiffs
  rw [if_neg hne]
  simp

theorem lengthDiff_mem_metaDiffs (s t : MapRecord)
    (hne : t.colors.length ≠ s.colors.length) :
    (⟨"length", [.name "data"], .name "colors",
      .len s.colors.length, .len t.colors.length⟩ : TagDiff) ∈ metaDiffs s t := by
  unfold metaDiffs
  rw [if_neg hne]
  simp

/-- A divergence at a direct child of the `data` compound can never be a
good divergence: its parent path is neither empty (DataVersion) nor the
raster path. -/
theorem metaValueDiff_not_good (cat : String) (f : String) (sv tv : DiffValue) :
    ¬ goodDiff ⟨cat, [.name "data"], .name f, sv, tv⟩ := by
  rintro ⟨-, hcond⟩
  rw [if_neg (by simp [dvFullPath])] at hcond
  simp [colorsPath] at hcond

theorem gpta_toTag_ok_inv (s t : MapRecord) (pixels : List MapPixel) (n : Nat)
    (h : get_pixels_to_apply s.toTag t.toTag = .ok (pixels, n)) :
    s.dataVersion ≤ t.dataVersion ∧ metaEq s t ∧ s.colors.length = t.colors.length ∧
      pixels = pixelChanges t.colors 0 s.colors := by
  obtain ⟨hg, -⟩ := gpta_ok_inv _ _ _ _ h
  rw [diffs_encoding] at hg
  have hmg : ∀ d ∈ metaDiffs s t, goodDiff d := fun d hd => hg d (List.mem_append_left _ hd)
  have hsc : s.scale = t.scale := by
    by_contra hne
    exact metaValueDiff_not_good _ "scale" _ _
      (hmg _ (scaleDiff_mem_metaDiffs s t (Ne.symm hne)))
  have hdi : s.dimension = t.dimension := by
    by_contra hne
    exact metaValueDiff_not_good _ "dimension" _ _
      (hmg _ (dimensionDiff_mem_metaDiffs s t (Ne.symm hne)))
  have hxc : s.xCenter = t.xCenter := by
    by_contra hne
    exact metaValueDiff_not_good _ "xCenter" _ _
      (hmg _ (xCenterDiff_mem_metaDiffs s t (Ne.symm hne)))
  have hzc : s.zCenter = t.zCenter := by
    by_contra hne
    exact metaValueDiff_not_good _ "zCenter" _ _
      (hmg _ (zCenterDiff_mem_metaDiffs s t (Ne.symm hne)))
  have hut : s.unlimitedTracking = t.unlimitedTracking := by
    by_contra hne
    exact metaValueDiff_not_good _ "unlimitedTracking" _ _
      (hmg _ (unlimitedDiff_mem_metaDiffs s t (Ne.symm hne)))
  have htp : s.trackingPosition = t.trackingPosition := by
    by_contra hne
    exact metaValueDiff_not_good _ "trackingPosition" _ _
      (hmg _ (trackingDiff_mem_metaDiffs s t (Ne.symm hne)))
  have hlen : s.colors.length = t.colors.length := by
    by_contra hne
    obtain ⟨hcat, -⟩ := hmg _ (lengthDiff_mem_metaDiffs s t (Ne.symm hne))
    simp at hcat
  have hdv : s.dataVersion ≤ t.dataVersion := by
    by_cases hdveq : t.dataVersion = s.dataVersion
    · omega
    · obtain ⟨-, hcond⟩ := hmg _ (dvDiff_mem_metaDiffs s t hdveq)
      rw [if_pos (by rfl)] at hcond
      simp [DiffValue.ge, tagGe] at hcond
      omega
  have hmeta : metaEq s t := ⟨hsc, hdi, hxc, hzc, hut, htp⟩
  refine ⟨hdv, hmeta, hlen, ?_⟩
  obtain ⟨n2, hok⟩ := gpta_toTag_ok s t hdv hmeta hlen
  rw [h] at hok
  have := (Except.ok.injEq _ _).mp hok
  exact congrArg Prod.fst this

/-! ## Applying the changes to an encoded record -/

theorem lookup_toTag_colors (t : MapRecord) :
    t.toTag.lookup colorsPath = Option.some (.byteArray t.colors) := by
  simp [colorsPath, MapRecord.toTag, MapRecord.dataFields, Tag.lookup, Tag.child,
    TagFields.find?]

/-- `apply_pixels` on an encoded record only rewrites the raster: the
result is the encoding of the same record with the updated raster. -/
theorem apply_pixels_toTag (t : MapRecord) (ps : List MapPixel) :
    apply_pixels t.toTag ps
      = MapRecord.toTag { t with colors := applyPixelsArr t.colors ps } := by
  rw [apply_pixels, lookup_toTag_colors]
  simp [setDataColors, MapRecord.toTag, MapRecord.dataFields, TagFields.find?,
    TagFields.replace]

/-! ## The duplicate-group sort -/

theorem sortKeyLe_of_not_lt {x y : MapMeta} (h : ¬ sortKeyLt y x = true) :
    sortKeyLe x y = true := by
  simp [sortKeyLt] at h
  simp [sortKeyLe]
  omega

theorem sortKeyLe_of_lt {x y : MapMeta} (h : sortKeyLt x y = true) :
    sortKeyLe x y = true := by
  simp [sortKeyLt] at h
  simp [sortKeyLe]
  omega

theorem sortKeyLe_trans {x y z : MapMeta} (h1 : sortKeyLe x y = true)
    (h2 : sortKeyLe y z = true) : sortKeyLe x z = true := by
  simp [sortKeyLe] at h1 h2 ⊢
  omega

theorem mem_insertByKey {x y : MapMeta} {l : List MapMeta} :
    y ∈ insertByKey x l ↔ y = x ∨ y ∈ l := by
  induction l with
  | nil => simp [insertByKey]
  | cons z zs ih =>
    rw [insertByKey]
    by_cases h : sortKeyLt z x
    · rw [if_pos h]
      simp only [List.mem_cons, ih]
      tauto
    · rw [if_neg h]
      simp only [List.mem_cons]

theorem length_insertByKey (x : MapMeta) (l : List MapMeta) :
    (insertByKey x l).length = l.length + 1 := by
  induction l with
  | nil => rfl
  | cons z zs ih =>
    rw [insertByKey]
    by_cases h : sortKeyLt z x
    · rw [if_pos h]; simp [ih]
    · rw [if_neg h]; simp

theorem pairwise_insertByKey {x : MapMeta} {l : List MapMeta}
    (h : List.Pairwise (fun a b => sortKeyLe a b = true) l) :
    List.Pairwise (fun a b => sortKeyLe a b = true) (insertByKey x l) := by
  induction l with
  | nil => simp [insertByKey]
  | cons z zs ih =>
    rcases List.pairwise_cons.mp h with ⟨hz, hzs⟩
    rw [insertByKey]
    by_cases hlt : sortKeyLt z x
    · rw [if_pos hlt]
      refine List.pairwise_cons.mpr ⟨?_, ih hzs⟩
      intro b hb
      rcases mem_insertByKey.mp hb with rfl | hb
      · exact sortKeyLe_of_lt hlt
      · exact hz b hb
    · rw [if_neg hlt]
      refine List.pairwise_cons.mpr ⟨?_, List.pairwise_cons.mpr ⟨hz, hzs⟩⟩
      intro b hb
      rcases List.mem_cons.mp hb with rfl | hb
      · exact sortKeyLe_of_not_lt hlt
      · exact sortKeyLe_trans (sortKeyLe_of_not_lt hlt) (hz b hb)

theorem pairwise_dedupe_sort (l : List MapMeta) :
    List.Pairwise (fun a b => sortKeyLe a b = true) (dedupe_sort l) := by
  induction l with
  | nil => simp [dedupe_sort]
  | cons x xs ih => exact pairwise_insertByKey ih

theorem mem_dedupe_sort {y : MapMeta} {l : List MapMeta} :
    y ∈ dedupe_sort l ↔ y ∈ l := by
  induction l with
  | nil => simp [dedupe_sort]
  | cons x xs ih =>
    rw [dedupe_sort, mem_insertByKey, ih]
    simp

theorem length_dedupe_sort (l : List MapMeta) :
    (dedupe_sort l).length = l.length := by
  induction l with
  | nil => rfl
  | cons x xs ih => rw [dedupe_sort, length_insertByKey, ih]; rfl

/-! ## The defragmentation plan -/

theorem mem_defrag_shift_map {ids : List Nat} {m i : Nat} :
    (m, i) ∈ defrag_shift_map ids ↔ ids[i]? = Option.some m ∧ i < m := by
  unfold defrag_shift_map
  rw [List.mem_filterMap]
  constructor
  · rintro ⟨⟨j, v⟩, hmem, hf⟩
    by_cases h : j < v
    · rw [if_pos h] at hf
      simp only [Option.some.injEq, Prod.mk.injEq] at hf
      obtain ⟨rfl, rfl⟩ := hf
      exact ⟨List.mem_enum_iff_getElem?.mp hmem, h⟩
    · rw [if_neg h] at hf; cases hf
  · rintro ⟨hget, hlt⟩
    refine ⟨(i, m), List.mem_enum_iff_getElem?.mpr (by simpa using hget), ?_⟩
    rw [if_pos hlt]

theorem le_getElem_of_pairwise_lt (ids : List Nat)
    (h : List.Pairwise (fun a b => a < b) ids) (a : Nat) (ha : ∀ x ∈ ids, a ≤ x) :
    ∀ i, (hi : i < ids.length) → a + i ≤ ids[i] := by
  induction ids generalizing a with
  | nil => intro i hi; simp at hi
  | cons b rest ih =>
    rcases List.pairwise_cons.mp h with ⟨hb, hrest⟩
    intro i hi
    cases i with
    | zero => simpa using ha b (List.mem_cons_self _ _)
    | succ n =>
      have h1 : ∀ x ∈ rest, b + 1 ≤ x := fun x hx => hb x hx
      have h2 := ih hrest (b + 1) h1 n (by simpa using hi)
      have hab : a ≤ b := ha b (List.mem_cons_self _ _)
      rw [List.getElem_cons_succ]
      omega

/-! ## The merge-and-delete loop under an aborted reference scan -/

theorem merge_delete_effects_aborted (jobs : List MergeJob) :
    merge_delete_effects jobs true = [] := by
  induction jobs with
  | nil => rfl
  | cons j rest ih =>
    rw [merge_delete_effects]
    simp [ih]

/-! ## Claims -/

/-- C1, counterexample: two records identical except for one pixel cell
that is non-blank in both and differs (1 vs 2).  The diff contains exactly
that conflicting value divergence inside the raster, yet
`get_pixels_to_apply` does not raise: it succeeds with an empty change
list.  The merge does not reject on conflicting non-blank data. -/
theorem C1_counterexample :
    get_map_diffs recSconf.toTag recTconf.toTag
      = [⟨"value", colorsPath, .idx 0, .val (.byte 1), .val (.byte 2)⟩] ∧
    get_pixels_to_apply recSconf.toTag recTconf.toTag = .ok ([], 1) :=
  ⟨by decide, rfl⟩

/-- C1, amended: if the diff of two records has a value divergence inside
the raster with both cells non-blank, a successful `get_pixels_to_apply`
records no change for that cell and the conflicting target cell is never
overwritten — the conflict is silently ignored rather than rejected. -/
theorem C1_conflict_ignored_never_overwritten (s t : MapRecord) (pixels : List MapPixel)
    (n : Nat) (h : get_pixels_to_apply s.toTag t.toTag = .ok (pixels, n))
    (i : Nat) (a b : Int) (hs : s.colors[i]? = Option.some a) (_ha : a ≠ 0)
    (ht : t.colors[i]? = Option.some b) (hb : b ≠ 0) :
    (∀ w : DiffValue, (TagKey.idx i, w) ∉ pixels) ∧
      (apply_pixels t.toTag pixels).lookup (colorsPath ++ [TagKey.idx i])
        = Option.some (.byte b) := by
  obtain ⟨hdv, hm, hlen, hpix⟩ := gpta_toTag_ok_inv s t pixels n h
  subst hpix
  constructor
  · intro w hw
    obtain ⟨c, -, -, -, -, ht0⟩ := mem_pixelChanges.mp hw
    rw [ht] at ht0
    simp only [Option.some.injEq] at ht0
    exact hb ht0
  · rw [apply_pixels_toTag]
    rw [show colorsPath = [TagKey.name "data", TagKey.name "colors"] from rfl]
    rw [lookup_toTag_colors_cell]
    have hcolors :
        ({ t with colors := applyPixelsArr t.colors (pixelChanges t.colors 0 s.colors) }
            : MapRecord).colors
          = List.zipWith mergeCell s.colors t.colors :=
      applyPixelsArr_pixelChanges s.colors t.colors hlen
    rw [hcolors]
    obtain ⟨hjs, hes⟩ := List.getElem?_eq_some_iff.mp hs
    obtain ⟨hjt, het⟩ := List.getElem?_eq_some_iff.mp ht
    rw [List.getElem?_zipWith, hs, ht]
    have hmc : mergeCell a b = b := by simp [mergeCell]; omega
    simp [hmc]

/-- C1 witness: the amended theorem applied to the conflicting pair. -/
theorem C1_witness :
    (∀ w : DiffValue, (TagKey.idx 0, w) ∉ ([] : List MapPixel)) ∧
      (apply_pixels recTconf.toTag []).lookup (colorsPath ++ [TagKey.idx 0])
        = Option.some (.byte 2) :=
  C1_conflict_ignored_never_overwritten recSconf recTconf [] 1 rfl 0 1 2 rfl
    (by decide) rfl (by decide)

/-- C2: the diff engine does not prune the subtree of a missing
container.  For a source holding a `data` compound with one child and a
target without `data`, `get_map_diffs` emits a `missing` divergence for
the container AND one for its descendant — the claim (and the comment in
the source, "If container, should prune its whole subtree") calls for
exactly one divergence with the subtree pruned. -/
theorem C2_missing_subtree_not_pruned :
    get_map_diffs missingSrc missingTgt
      = [⟨"missing", [], .name "data", .nil, .nil⟩,
         ⟨"missing", [.name "data"], .name "scale", .nil, .nil⟩] := by
  decide

/-- C3: `get_pixels_to_apply` succeeds exactly when every divergence has
category `value`, every divergence outside the DataVersion field lies in
the raster, and the target DataVersion is at least the source one; and a
successful run records only raster-cell changes (the DataVersion
divergence contributes no pixel change). -/
theorem C3_validation_policy (s t : MapRecord) :
    ((∃ r, get_pixels_to_apply s.toTag t.toTag = .ok r) ↔
      ((∀ d ∈ get_map_diffs s.toTag t.toTag, d.category = "value") ∧
        (∀ d ∈ get_map_diffs s.toTag t.toTag,
          d.path ++ [d.key] ≠ dvFullPath → d.path = colorsPath) ∧
        s.dataVersion ≤ t.dataVersion)) ∧
    (∀ pixels n, get_pixels_to_apply s.toTag t.toTag = .ok (pixels, n) →
      ∀ p ∈ pixels, ∃ i a, p = (TagKey.idx i, DiffValue.val (Tag.byte a))) := by
  constructor
  · constructor
    · rintro ⟨⟨pixels, n⟩, h⟩
      obtain ⟨hg, -⟩ := gpta_ok_inv _ _ _ _ h
      obtain ⟨hdv, -, -, -⟩ := gpta_toTag_ok_inv s t pixels n h
      refine ⟨fun d hd => (hg d hd).1, fun d hd hne => ?_, hdv⟩
      have hcond := (hg d hd).2
      rwa [if_neg hne] at hcond
    · rintro ⟨hval, hpath, hdv⟩
      have hmem_diff : ∀ d ∈ metaDiffs s t, d ∈ get_map_diffs s.toTag t.toTag := by
        intro d hd
        rw [diffs_encoding]
        exact List.mem_append_left _ hd
      have hm : metaEq s t := by
        refine ⟨?_, ?_, ?_, ?_, ?_, ?_⟩
        · by_contra hne
          have := hpath _ (hmem_diff _ (scaleDiff_mem_metaDiffs s t (Ne.symm hne)))
            (by simp [dvFullPath])
          simp [colorsPath] at this
        · by_contra hne
          have := hpath _ (hmem_diff _ (dimensionDiff_mem_metaDiffs s t (Ne.symm hne)))
            (by simp [dvFullPath])
          simp [colorsPath] at this
        · by_contra hne
          have := hpath _ (hmem_diff _ (xCenterDiff_mem_metaDiffs s t (Ne.symm hne)))
            (by simp [dvFullPath])
          simp [colorsPath] at this
        · by_contra hne
          have := hpath _ (hmem_diff _ (zCenterDiff_mem_metaDiffs s t (Ne.symm hne)))
            (by simp [dvFullPath])
          simp [colorsPath] at this
        · by_contra hne
          have := hpath _ (hmem_diff _ (unlimitedDiff_mem_metaDiffs s t (Ne.symm hne)))
            (by simp [dvFullPath])
          simp [colorsPath] at this
        · by_contra hne
          have := hpath _ (hmem_diff _ (trackingDiff_mem_metaDiffs s t (Ne.symm hne)))
            (by simp [dvFullPath])
          simp [colorsPath] at this
      have hlen : s.colors.length = t.colors.length := by
        by_contra hne
        have := hval _ (hmem_diff _ (lengthDiff_mem_metaDiffs s t (Ne.symm hne)))
        simp at this
      obtain ⟨n, hok⟩ := gpta_toTag_ok s t hdv hm hlen
      exact ⟨_, hok⟩
  · intro pixels n h p hp
    obtain ⟨-, -, -, hpix⟩ := gpta_toTag_ok_inv s t pixels n h
    subst hpix
    obtain ⟨j, a, rfl⟩ := mem_pixelChanges_shape hp
    exact ⟨j, a, rfl⟩

/-- C3 witness: the acceptance direction applied to `recS`/`recT`. -/
theorem C3_witness : ∃ r, get_pixels_to_apply recS.toTag recT.toTag = .ok r :=
  (C3_validation_policy recS recT).1.mpr ⟨by decide, by decide, by decide⟩

/-- C4: if `get_pixels_to_apply(A, B)` succeeds with changes `C`, then
after applying `C` to `B` the re-run merge yields the `Identical` signal
or the no-changes outcome — never new changes. -/
theorem C4_merge_idempotent (s t : MapRecord) (pixels : List MapPixel) (n : Nat)
    (h : get_pixels_to_apply s.toTag t.toTag = .ok (pixels, n)) :
    merge_map s.toTag (apply_pixels t.toTag pixels) = .identical ∨
      ∃ m, merge_map s.toTag (apply_pixels t.toTag pixels) = .noChanges m := by
  obtain ⟨hdv, hm, hlen, hpix⟩ := gpta_toTag_ok_inv s t pixels n h
  subst hpix
  rw [apply_pixels_toTag]
  have hcolors :
      ({ t with colors := applyPixelsArr t.colors (pixelChanges t.colors 0 s.colors) }
          : MapRecord).colors
        = List.zipWith mergeCell s.colors t.colors :=
    applyPixelsArr_pixelChanges s.colors t.colors hlen
  have hm' : metaEq s { t with
      colors := applyPixelsArr t.colors (pixelChanges t.colors 0 s.colors) } := hm
  have hdv' : s.dataVersion ≤ ({ t with
      colors := applyPixelsArr t.colors (pixelChanges t.colors 0 s.colors) }
        : MapRecord).dataVersion := hdv
  have hlen' : s.colors.length = ({ t with
      colors := applyPixelsArr t.colors (pixelChanges t.colors 0 s.colors) }
        : MapRecord).colors.length := by
    rw [hcolors, List.length_zipWith]
    omega
  obtain ⟨n2, hok⟩ := gpta_toTag_ok s
    { t with colors := applyPixelsArr t.colors (pixelChanges t.colors 0 s.colors) }
    hdv' hm' hlen'
  rw [hcolors, pixelChanges_merged_nil s.colors t.colors hlen] at hok
  unfold merge_map
  rw [hok]
  by_cases hn : n2 = 0
  · left; simp [hn]
  · right; exact ⟨n2, by simp [hn]⟩

/-- C4 witness: idempotence at the concrete mergeable pair. -/
theorem C4_witness :
    merge_map recS.toTag
        (apply_pixels recT.toTag [(TagKey.idx 1, DiffValue.val (Tag.byte 2))])
      = .identical ∨
    ∃ m, merge_map recS.toTag
        (apply_pixels recT.toTag [(TagKey.idx 1, DiffValue.val (Tag.byte 2))])
      = .noChanges m :=
  C4_merge_idempotent recS recT [(TagKey.idx 1, DiffValue.val (Tag.byte 2))] 2 rfl

/-- C5, counterexample: a successful merge of `recS` into `recT` applies
its one change, yet re-running the diff afterwards still yields a
pixel-value divergence (cell 0: source blank, target non-blank).  The
re-run is not free of pixel-value divergences — only free of remaining
changes. -/
theorem C5_counterexample :
    get_pixels_to_apply recS.toTag recT.toTag
      = .ok ([(TagKey.idx 1, DiffValue.val (Tag.byte 2))], 2) ∧
    get_map_diffs recS.toTag
        (apply_pixels recT.toTag [(TagKey.idx 1, DiffValue.val (Tag.byte 2))])
      = [⟨"value", colorsPath, .idx 0, .val (.byte 0), .val (.byte 1)⟩] :=
  ⟨rfl, by decide⟩

/-- C5, amended: after applying the changes of a successful
`get_pixels_to_apply` to the target, re-running the validation yields
zero remaining pixel changes (the post-condition the source asserts). -/
theorem C5_no_remaining_changes (s t : MapRecord) (pixels : List MapPixel) (n : Nat)
    (h : get_pixels_to_apply s.toTag t.toTag = .ok (pixels, n)) :
    ∃ m, get_pixels_to_apply s.toTag (apply_pixels t.toTag pixels) = .ok ([], m) := by
  obtain ⟨hdv, hm, hlen, hpix⟩ := gpta_toTag_ok_inv s t pixels n h
  subst hpix
  rw [apply_pixels_toTag]
  have hcolors :
      ({ t with colors := applyPixelsArr t.colors (pixelChanges t.colors 0 s.colors) }
          : MapRecord).colors
        = List.zipWith mergeCell s.colors t.colors :=
    applyPixelsArr_pixelChanges s.colors t.colors hlen
  have hm' : metaEq s { t with
      colors := applyPixelsArr t.colors (pixelChanges t.colors 0 s.colors) } := hm
  have hdv' : s.dataVersion ≤ ({ t with
      colors := applyPixelsArr t.colors (pixelChanges t.colors 0 s.colors) }
        : MapRecord).dataVersion := hdv
  have hlen' : s.colors.length = ({ t with
      colors := applyPixelsArr t.colors (pixelChanges t.colors 0 s.colors) }
        : MapRecord).colors.length := by
    rw [hcolors, List.length_zipWith]
    omega
  obtain ⟨n2, hok⟩ := gpta_toTag_ok s
    { t with colors := applyPixelsArr t.colors (pixelChanges t.colors 0 s.colors) }
    hdv' hm' hlen'
  rw [hcolors, pixelChanges_merged_nil s.colors t.colors hlen] at hok
  exact ⟨n2, hok⟩

/-- C5 witness: the amended theorem applied to the concrete pair. -/
theorem C5_witness :
    ∃ m, get_pixels_to_apply recS.toTag
        (apply_pixels recT.toTag [(TagKey.idx 1, DiffValue.val (Tag.byte 2))])
      = .ok ([], m) :=
  C5_no_remaining_changes recS recT [(TagKey.idx 1, DiffValue.val (Tag.byte 2))] 2 rfl

/-- C6: a non-blank target raster cell is never modified by the
validate-then-apply pipeline: after applying the changes of a successful
`get_pixels_to_apply`, the cell still holds its old value. -/
theorem C6_nonblank_target_cells_preserved (s t : MapRecord) (pixels : List MapPixel)
    (n : Nat) (h : get_pixels_to_apply s.toTag t.toTag = .ok (pixels, n))
    (i : Nat) (b : Int) (ht : t.colors[i]? = Option.some b) (hb : b ≠ 0) :
    (apply_pixels t.toTag pixels).lookup (colorsPath ++ [TagKey.idx i])
      = Option.some (.byte b) := by
  obtain ⟨hdv, hm, hlen, hpix⟩ := gpta_toTag_ok_inv s t pixels n h
  subst hpix
  rw [apply_pixels_toTag]
  rw [show colorsPath = [TagKey.name "data", TagKey.name "colors"] from rfl]
  rw [lookup_toTag_colors_cell]
  have hcolors :
      ({ t with colors := applyPixelsArr t.colors (pixelChanges t.colors 0 s.colors) }
          : MapRecord).colors
        = List.zipWith mergeCell s.colors t.colors :=
    applyPixelsArr_pixelChanges s.colors t.colors hlen
  rw [hcolors]
  obtain ⟨hjt, het⟩ := List.getElem?_eq_some_iff.mp ht
  have hjs : i < s.colors.length := by omega
  have hs : s.colors[i]? = Option.some s.colors[i] := List.getElem?_eq_getElem hjs
  rw [List.getElem?_zipWith, hs, ht]
  have hmc : mergeCell s.colors[i] b = b := by simp [mergeCell]; omega
  simp [hmc]

/-- C6 witness: the non-blank cell 0 of `recT` keeps value 1 after the
merge from `recS`. -/
theorem C6_witness :
    (apply_pixels recT.toTag [(TagKey.idx 1, DiffValue.val (Tag.byte 2))]).lookup
        (colorsPath ++ [TagKey.idx 0]) = Option.some (.byte 1) :=
  C6_nonblank_target_cells_preserved recS recT
    [(TagKey.idx 1, DiffValue.val (Tag.byte 2))] 2 rfl 0 1 rfl (by decide)

/-- C7: after sorting a duplicate group by `(dataVersion ascending,
mapid descending)` the selected target (the last element) is a member
with the highest dataVersion and, among those, the lowest id; the other
members are the candidates in the sorted ascending order.  The selection
is a pure function of the group, hence deterministic. -/
theorem C7_target_selection (dupes : List MapMeta) (hne : dupes ≠ []) :
    ∃ target candidates, dedupe_select dupes = Option.some (target, candidates) ∧
      target ∈ dupes ∧
      (∀ m ∈ dupes, m.dataVersion < target.dataVersion ∨
        (m.dataVersion = target.dataVersion ∧ target.mapid ≤ m.mapid)) ∧
      dedupe_sort dupes = candidates ++ [target] ∧
      List.Pairwise (fun a b => sortKeyLe a b = true) (candidates ++ [target]) := by
  have hsne : dedupe_sort dupes ≠ [] := by
    intro h0
    have hl := length_dedupe_sort dupes
    rw [h0] at hl
    cases dupes with
    | nil => exact hne rfl
    | cons x xs => simp at hl
  have hlast : (dedupe_sort dupes).getLast? =
      Option.some ((dedupe_sort dupes).getLast hsne) :=
    List.getLast?_eq_getLast _ hsne
  have hsplit : (dedupe_sort dupes).dropLast ++ [(dedupe_sort dupes).getLast hsne]
      = dedupe_sort dupes := List.dropLast_append_getLast hsne
  refine ⟨(dedupe_sort dupes).getLast hsne, (dedupe_sort dupes).dropLast, ?_, ?_, ?_,
    hsplit.symm, ?_⟩
  · unfold dedupe_select
    rw [hlast]
  · exact mem_dedupe_sort.mp (List.getLast_mem hsne)
  · intro m hm
    have hm' : m ∈ dedupe_sort dupes := mem_dedupe_sort.mpr hm
    have hpw := pairwise_dedupe_sort dupes
    rw [← hsplit] at hpw hm'
    rcases List.mem_append.mp hm' with hd | hd
    · rcases List.pairwise_append.mp hpw with ⟨-, -, hcross⟩
      have hle := hcross m hd _ (List.mem_singleton_self _)
      simp [sortKeyLe] at hle
      omega
    · simp only [List.mem_singleton] at hd
      subst hd
      exact Or.inr ⟨rfl, le_refl _⟩
  · rw [hsplit]
    exact pairwise_dedupe_sort dupes

/-- C7 witness: selection on the concrete group picks id 3 (highest
dataVersion 200, lowest id among the tie with id 5). -/
theorem C7_witness :
    ∃ target candidates, dedupe_select dupesExample = Option.some (target, candidates) ∧
      target ∈ dupesExample ∧
      (∀ m ∈ dupesExample, m.dataVersion < target.dataVersion ∨
        (m.dataVersion = target.dataVersion ∧ target.mapid ≤ m.mapid)) ∧
      dedupe_sort dupesExample = candidates ++ [target] ∧
      List.Pairwise (fun a b => sortKeyLe a b = true) (candidates ++ [target]) :=
  C7_target_selection dupesExample (by decide)

/-- C8: for strictly ascending non-negative ids the defragmentation plan
contains exactly one move `id → rank` for every 0-based rank whose id
differs from it (equivalently exceeds it), and the two concrete examples
of the spec hold. -/
theorem C8_defrag_plan (ids : List Nat) (hasc : List.Pairwise (fun a b => a < b) ids) :
    (∀ m i : Nat, ((m, i) ∈ defrag_shift_map ids ↔
        ∃ hi : i < ids.length, ids[i] = m ∧ m ≠ i)) ∧
    defrag_shift_map [0, 2, 3, 5] = [(2, 1), (3, 2), (5, 3)] ∧
    defrag_shift_map [0, 1, 2, 3] = [] := by
  refine ⟨?_, by decide, by decide⟩
  intro m i
  rw [mem_defrag_shift_map]
  constructor
  · rintro ⟨hget, hlt⟩
    obtain ⟨hi, he⟩ := List.getElem?_eq_some_iff.mp hget
    exact ⟨hi, he, by omega⟩
  · rintro ⟨hi, he, hne⟩
    have hle : 0 + i ≤ ids[i] :=
      le_getElem_of_pairwise_lt ids hasc 0 (fun x _ => Nat.zero_le x) i hi
    exact ⟨List.getElem?_eq_some_iff.mpr ⟨hi, he⟩, by omega⟩

/-- C8 witness: the characterization applied to the ids 0, 2, 3, 5. -/
theorem C8_witness :
    (∀ m i : Nat, ((m, i) ∈ defrag_shift_map [0, 2, 3, 5] ↔
        ∃ hi : i < ([0, 2, 3, 5] : List Nat).length,
          ([0, 2, 3, 5] : List Nat)[i] = m ∧ m ≠ i)) ∧
    defrag_shift_map [0, 2, 3, 5] = [(2, 1), (3, 2), (5, 3)] ∧
    defrag_shift_map [0, 1, 2, 3] = [] :=
  C8_defrag_plan [0, 2, 3, 5] (by decide)

/-- C9: when the reference scan was aborted (partial index, propagated as
the boolean returned by `get_map_refs`), the merge-and-delete loop of
`dedupe` saves and renames nothing, and `defrag_maps` performs no move
and no idcounts write: the destructive-effect trace is empty. -/
theorem C9_aborted_scan_skips_destruction (jobs : List MergeJob) (ids : List Nat) :
    dedupe_effects jobs ids true = [] := by
  rw [dedupe_effects, merge_delete_effects_aborted, defrag_maps_effects]
  rfl

/-- C10: `apply_pixels` only rewrites the raster of the target record —
every other field is unchanged — and every raster cell whose index is not
in the change list keeps its value. -/
theorem C10_apply_pixels_frame (t : MapRecord) (pixels : List MapPixel) :
    apply_pixels t.toTag pixels
      = MapRecord.toTag { t with colors := applyPixelsArr t.colors pixels } ∧
    ∀ j : Nat, (∀ w : DiffValue, (TagKey.idx j, w) ∉ pixels) →
      (applyPixelsArr t.colors pixels)[j]? = t.colors[j]? := by
  refine ⟨apply_pixels_toTag t pixels, ?_⟩
  intro j hj
  exact getElem?_applyPixelsArr_not_mem pixels t.colors j (fun v hv => hj _ hv)

/-- C10 witness: cell 0 is untouched by a change list writing cell 1. -/
theorem C10_witness :
    (applyPixelsArr recT.colors [(TagKey.idx 1, DiffValue.val (Tag.byte 2))])[0]?
      = recT.colors[0]? :=
  (C10_apply_pixels_frame recT [(TagKey.idx 1, DiffValue.val (Tag.byte 2))]).2 0
    (by intro w hw; simp at hw)

end MapDeduper
